import Mathlib

/-!
Verification of the integral-db repository's specification against a shallow
embedding of its source.  The embedding covers:

* `db_adapter/src/column_family.rs` — `ColumnFamily`, its byte-decoding
  fallback and the 8-byte FNV-1a key prefix;
* `db_adapter/src/pebble_db.rs` — the in-memory `PebbleDB` backend
  (`insert`, `new_cf`, `cf_exists`, `cf_len`);
* `lr_trie/src/tree_wrapper.rs` — the typed `JellyfishMerkleTreeWrapper`
  facade (`get`, `contains`, `insert`, `remove`);
* `lr_trie/src/absorb_op.rs` — `Absorb::absorb_first` and
  `increment_version`;
* `lr_trie/src/trie.rs` — `LeftRightTrie` (`insert`, `extend`, `publish`).

The `patriecia` Jellyfish Merkle tree crate is a dependency whose sources are
not part of this repository; its value-history semantics (`put_value_set`,
`get`, `contains`, `version`) are modelled from the specification, as noted on
each such definition.  Bytes are modelled as `Nat` (each < 256 where it
matters), `u64` arithmetic carries explicit `% 2 ^ 64` style bounds where
overflow is observable.
-/

deriving instance DecidableEq for Except

namespace IntegralDb

/-! ## Column families (`db_adapter/src/column_family.rs`) -/

/-- Modelled from the spec: one step of the UTF-8 validity automaton used by
Rust's `String::from_utf8` (RFC 3629: continuation ranges, overlong, surrogate
and out-of-range rejection).  The state is
`(pending continuation bytes, low bound for the next byte, high bound)`. -/
def utf8Step : Nat × Nat × Nat → Nat → Option (Nat × Nat × Nat)
  | (0, _, _), b =>
    if b ≤ 0x7F then some (0, 0x80, 0xBF)
    else if 0xC2 ≤ b ∧ b ≤ 0xDF then some (1, 0x80, 0xBF)
    else if b = 0xE0 then some (2, 0xA0, 0xBF)
    else if (0xE1 ≤ b ∧ b ≤ 0xEC) ∨ b = 0xEE ∨ b = 0xEF then some (2, 0x80, 0xBF)
    else if b = 0xED then some (2, 0x80, 0x9F)
    else if b = 0xF0 then some (3, 0x90, 0xBF)
    else if 0xF1 ≤ b ∧ b ≤ 0xF3 then some (3, 0x80, 0xBF)
    else if b = 0xF4 then some (3, 0x80, 0x8F)
    else none
  | (n + 1, lo, hi), b =>
    if lo ≤ b ∧ b ≤ hi then some (n, 0x80, 0xBF) else none

/-- Modelled from the spec: `String::from_utf8` succeeds exactly when the byte
sequence is valid UTF-8, i.e. the automaton consumes all bytes and ends with no
pending continuation bytes. -/
def validUTF8 (bytes : List Nat) : Bool :=
  match bytes.foldl (fun st b => st.bind (fun s => utf8Step s b)) (some (0, 0x80, 0xBF)) with
  | some (0, _, _) => true
  | _ => false

/-- `ColumnFamily(String)`: a Rust `String` is its UTF-8 byte content, so the
name is carried as the list of its UTF-8 bytes. -/
structure ColumnFamily where
  name : List Nat
deriving DecidableEq, Repr

/-- `DEFAULT_COLUMN_FAMILY = "default"` as UTF-8 bytes. -/
def DEFAULT_COLUMN_FAMILY : List Nat := [100, 101, 102, 97, 117, 108, 116]

/-- `Default for ColumnFamily`: the default family named `"default"`. -/
def ColumnFamily.default : ColumnFamily := ⟨DEFAULT_COLUMN_FAMILY⟩

/-- `From<Vec<u8>> for ColumnFamily`: decode the bytes as UTF-8; on failure
fall back to the default family (never fatal). -/
def ColumnFamily.fromBytes (bytes : List Nat) : ColumnFamily :=
  if validUTF8 bytes then ⟨bytes⟩ else ColumnFamily.default

/-- FNV-1a 64-bit offset basis, from the `fnv` crate used as `DefaultHasher`. -/
def fnvOffsetBasis : Nat := 0xcbf29ce484222325

/-- FNV-1a 64-bit prime. -/
def fnvPrime : Nat := 0x100000001b3

/-- One FNV-1a step on a byte: xor then multiply, in `u64` arithmetic. -/
def fnvStep (h b : Nat) : Nat := ((h ^^^ b) * fnvPrime) % 2 ^ 64

/-- Big-endian bytes of a `u64`, as produced by `u64::to_be_bytes`. -/
def toBEBytes8 (n : Nat) : List Nat :=
  [n / 2 ^ 56 % 256, n / 2 ^ 48 % 256, n / 2 ^ 40 % 256, n / 2 ^ 32 % 256,
   n / 2 ^ 24 % 256, n / 2 ^ 16 % 256, n / 2 ^ 8 % 256, n % 256]

/-- `ColumnFamily::cf_key`: hash the name with the FNV-1a `DefaultHasher` and
take the big-endian bytes of the 64-bit result.  `Hash for str` feeds the
string's bytes followed by the `0xFF` terminator byte to the hasher.  The Rust
function returns `Result` but never fails, so it is modelled as total. -/
def ColumnFamily.cf_key (cf : ColumnFamily) : List Nat :=
  toBEBytes8 ((cf.name ++ [0xFF]).foldl fnvStep fnvOffsetBasis)

/-! ## The in-memory backend (`db_adapter/src/pebble_db.rs`) -/

/-- `indexmap::IndexMap::insert`: an existing key keeps its position and gets
the new value; a new key is appended at the end. -/
def idxInsert (m : List (List Nat × List Nat)) (k v : List Nat) :
    List (List Nat × List Nat) :=
  match m with
  | [] => [(k, v)]
  | p :: rest => if p.1 = k then (k, v) :: rest else p :: idxInsert rest k v

/-- `BTreeMap::get` on the column-family map (keys are unique). -/
def cfsFind (cfs : List (ColumnFamily × List (List Nat))) (cf : ColumnFamily) :
    Option (List (List Nat)) :=
  match cfs with
  | [] => none
  | p :: rest => if p.1 = cf then some p.2 else cfsFind rest cf

/-- The column-family map update performed by `PebbleDB::insert`: if the family
exists, append the prefixed key to its list unless already present; otherwise
insert the family with the singleton list. -/
def cfsInsertKey (cfs : List (ColumnFamily × List (List Nat))) (cf : ColumnFamily)
    (pk : List Nat) : List (ColumnFamily × List (List Nat)) :=
  match cfs with
  | [] => [(cf, [pk])]
  | p :: rest =>
    if p.1 = cf then (p.1, if pk ∈ p.2 then p.2 else p.2 ++ [pk]) :: rest
    else p :: cfsInsertKey rest cf pk

/-- `PebbleDB`: an insertion-ordered map from prefixed keys to values plus the
per-column-family lists of prefixed keys.  The `path : PathBuf` field is
omitted: it is a filesystem path never read by the modelled operations. -/
structure PebbleDB where
  inner : List (List Nat × List Nat)
  cfs : List (ColumnFamily × List (List Nat))
deriving DecidableEq, Repr

/-- `PebbleDB::default()`: both maps start empty. -/
def PebbleDB.empty : PebbleDB := ⟨[], []⟩

/-- `PebbleDB::cf_exists`. -/
def PebbleDB.cf_exists (db : PebbleDB) (cf : ColumnFamily) : Bool :=
  (cfsFind db.cfs cf).isSome

/-- `PebbleDB::new_cf`: insert an empty list for a fresh name; an existing name
is a no-op (a message is printed) and both paths return `Ok(())`. -/
def PebbleDB.new_cf (db : PebbleDB) (cf : ColumnFamily) : Except String PebbleDB :=
  if !db.cf_exists cf then .ok { db with cfs := db.cfs ++ [(cf, [])] }
  else .ok db

/-- `PebbleDB::cf_len`. -/
def PebbleDB.cf_len (db : PebbleDB) (cf : ColumnFamily) : Option Nat :=
  (cfsFind db.cfs cf).map List.length

/-- `PebbleDB::insert`.  The two `bincode::serialize` calls are modelled by
their fallible results `encKey` and `encVal`.  The order of effects follows the
Rust body: serialize the key (`?` returns early), compute the prefix, serialize
the value (evaluated in argument position, so `?` returns early before the map
is touched), then update `inner` and finally the column-family map.  The
returned pair is the post-call state together with the error, if any, of the
`Result`. -/
def PebbleDB.insert (db : PebbleDB) (encKey encVal : Except String (List Nat))
    (cf : ColumnFamily) : PebbleDB × Option String :=
  match encKey with
  | .error e => (db, some e)
  | .ok key =>
    let pk := cf.cf_key ++ key
    match encVal with
    | .error e => (db, some e)
    | .ok val => (⟨idxInsert db.inner pk val, cfsInsertKey db.cfs cf pk⟩, none)

/-- A call against the backend: `PebbleDB::insert` (with the serialization
results of key and value) or `PebbleDB::new_cf`. -/
inductive DbOp where
  | insertOp (encKey encVal : Except String (List Nat)) (cf : ColumnFamily)
  | newCfOp (cf : ColumnFamily)
deriving DecidableEq, Repr

/-- The column family named by a backend call. -/
def DbOp.cfName : DbOp → ColumnFamily
  | .insertOp _ _ cf => cf
  | .newCfOp cf => cf

/-- Execute one backend call, keeping the state (errors discard nothing). -/
def dbStep (db : PebbleDB) (op : DbOp) : PebbleDB :=
  match op with
  | .insertOp ek ev cf => (db.insert ek ev cf).1
  | .newCfOp cf =>
    match db.new_cf cf with
    | .ok d => d
    | .error _ => db

/-- Run a sequence of backend calls from the empty backend. -/
def runOps (ops : List DbOp) : PebbleDB := ops.foldl dbStep PebbleDB.empty

/-! ## The versioned tree (`patriecia`, modelled from the spec) -/

/-- An opaque byte value, `OwnedValue`. -/
abbrev OwnedValue := List Nat

/-- A 32-byte digest of a user key; the composite
`KeyHash::with::<Sha256>(bincode::serialize(key))` is treated as an opaque
deterministic function from keys to digests, so the digest itself is abstract. -/
abbrev KeyHash := Nat

/-- Modelled from the spec: the greatest history entry with version `≤ v`
(§4.3 `get_value`, invariant I2).  Later entries win ties, which is irrelevant
once versions are strictly increasing. -/
def entryAt (entries : List (Nat × Option OwnedValue)) (v : Nat) :
    Option (Nat × Option OwnedValue) :=
  match entries with
  | [] => none
  | e :: rest =>
    let r := entryAt rest v
    if e.1 ≤ v then
      match r with
      | none => some e
      | some a => if e.1 ≤ a.1 then some a else some e
    else r

/-- Look up one key's history list (empty when the key never appeared). -/
def histOf (h : List (KeyHash × List (Nat × Option OwnedValue))) (k : KeyHash) :
    List (Nat × Option OwnedValue) :=
  match h with
  | [] => []
  | p :: rest => if p.1 = k then p.2 else histOf rest k

/-- Append one history event to a key's list, creating the key if absent. -/
def assocAppend (h : List (KeyHash × List (Nat × Option OwnedValue))) (k : KeyHash)
    (e : Nat × Option OwnedValue) : List (KeyHash × List (Nat × Option OwnedValue)) :=
  match h with
  | [] => [(k, [e])]
  | p :: rest => if p.1 = k then (p.1, p.2 ++ [e]) :: rest else p :: assocAppend rest k e

/-- Modelled from the spec: duplicate `KeyHash`es in one `put_value_set` call
are resolved by last-writer-wins within the call (§4.4). -/
def dedupLast (values : List (KeyHash × Option OwnedValue)) :
    List (KeyHash × Option OwnedValue) :=
  values.foldl (fun acc kv => acc.filter (fun p => decide (p.1 ≠ kv.1)) ++ [kv]) []

/-- Modelled from the spec: `NodeBatch` is the set of new nodes produced by
applying a value-set at a version (§3).  Node construction is internal to the
`patriecia` crate, so a batch is abstracted by the version and the value-set
that produced it. -/
structure NodeBatch where
  version : Nat
  entries : List (KeyHash × Option OwnedValue)
deriving DecidableEq, Repr

/-- Modelled from the spec: error taxonomy of the tree core (§4.4); only the
version-monotonicity failure is reachable in the modelled operations. -/
inductive JmtError where
  | VersionNotMonotone
deriving DecidableEq, Repr

/-- The message produced by `err.to_string()` on a tree-core error. -/
def jmtErrMessage : JmtError → String
  | .VersionNotMonotone => "version is not newer than the latest version"

/-- Modelled from the spec: the observable state of a
`JellyfishMerkleTree<D, H>` together with its shared database `D` — the
per-key value history (§3 ValueHistory), the latest version known to the
database, and the node batches persisted through the `TreeWriter` (§4.3). -/
structure JMT where
  history : List (KeyHash × List (Nat × Option OwnedValue))
  version : Nat
  nodes : List NodeBatch
deriving DecidableEq, Repr

/-- `JellyfishMerkleTree::new`: an empty tree has version 0. -/
def JMT.empty : JMT := ⟨[], 0, []⟩

/-- All history entries are at versions the database already knows. -/
def JMT.WF (t : JMT) : Prop :=
  ∀ p ∈ t.history, ∀ e ∈ p.2, e.1 ≤ t.version

instance (t : JMT) : Decidable t.WF := by
  unfold JMT.WF; infer_instance

/-- Modelled from the spec: `put_value_set(values, version)` requires the
version to be strictly greater than the latest known version, resolves
duplicate keys last-writer-wins, appends one history event per affected key at
the new version, and returns the updated tree with the produced node batch
(§4.4). -/
def JMT.put_value_set (t : JMT) (values : List (KeyHash × Option OwnedValue))
    (v : Nat) : Except JmtError (JMT × NodeBatch) :=
  if v ≤ t.version then .error .VersionNotMonotone
  else
    let vs := dedupLast values
    .ok (⟨vs.foldl (fun h kv => assocAppend h kv.1 (v, kv.2)) t.history, v, t.nodes⟩,
         ⟨v, vs⟩)

/-- `TreeWriter::write_node_batch` on the in-memory backend: persist the batch
(idempotence aside, the modelled claims only observe that it is recorded). -/
def JMT.write_node_batch (t : JMT) (b : NodeBatch) : JMT :=
  { t with nodes := t.nodes ++ [b] }

/-- Modelled from the spec: `get(KeyHash, version)` returns the value of the
greatest history entry with version `≤ v`; a `None` entry or no entry means
absent (§4.3, I2). -/
def JMT.get (t : JMT) (k : KeyHash) (v : Nat) : Option OwnedValue :=
  match entryAt (histOf t.history k) v with
  | some e => e.2
  | none => none

/-- Modelled from the spec: `contains` is equivalent to `get(...).is_some()`
(§4.4). -/
def JMT.contains (t : JMT) (k : KeyHash) (v : Nat) : Bool :=
  (t.get k v).isSome

/-! ## The typed facade (`lr_trie/src/tree_wrapper.rs`) -/

/-- Modelled from the spec: `result.rs` is absent from the sources; §7 lists
the error kinds, of which the wrapper code under `src/` constructs only
`Other(message)`. -/
inductive LeftRightTrieError where
  | NotFound
  | Other (msg : String)
deriving DecidableEq, Repr

namespace JellyfishMerkleTreeWrapper

/-- `JellyfishMerkleTreeWrapper::get`: hash the encoded key, read the inner
tree at the version, error with `Other("received none value from inner trie")`
on a missing value, then decode.  `hashK` is the composite
`KeyHash::with::<Sha256>(bincode::serialize(...))`; `decV` is
`bincode::deserialize`. -/
def get {κ ν : Type} (hashK : κ → KeyHash) (decV : OwnedValue → Option ν)
    (t : JMT) (key : κ) (version : Nat) : Except LeftRightTrieError ν :=
  match t.get (hashK key) version with
  | none => .error (.Other "received none value from inner trie")
  | some raw =>
    match decV raw with
    | some v => .ok v
    | none => .error (.Other "failed to deserialize value")

/-- `JellyfishMerkleTreeWrapper::contains`: delegate to the inner tree. -/
def contains {κ : Type} (hashK : κ → KeyHash) (t : JMT) (key : κ) (version : Nat) :
    Except LeftRightTrieError Bool :=
  .ok (t.contains (hashK key) version)

/-- `JellyfishMerkleTreeWrapper::insert`: `put_value_set` of the single pair
`(hash, Some(encoded value))` at `version() + 1`, then persist the produced
node batch through the backend's `TreeWriter`.  `encV` is
`bincode::serialize`. -/
def insert {κ ν : Type} (hashK : κ → KeyHash) (encV : ν → OwnedValue)
    (t : JMT) (key : κ) (value : ν) : Except LeftRightTrieError JMT :=
  match t.put_value_set [(hashK key, some (encV value))] (t.version + 1) with
  | .ok (t', batch) => .ok (t'.write_node_batch batch)
  | .error e => .error (.Other (jmtErrMessage e))

/-- `JellyfishMerkleTreeWrapper::remove`: `put_value_set` of `(hash, None)` at
`version() + 1`, persist the batch, then return the negation of `contains` at
that version. -/
def remove {κ : Type} (hashK : κ → KeyHash) (t : JMT) (key : κ) :
    Except LeftRightTrieError (JMT × Bool) :=
  let version := t.version + 1
  match t.put_value_set [(hashK key, none)] version with
  | .ok (t', batch) =>
    let t2 := t'.write_node_batch batch
    .ok (t2, !t2.contains (hashK key) version)
  | .error e => .error (.Other (jmtErrMessage e))

end JellyfishMerkleTreeWrapper

/-! ## The operation log and its absorption
(`lr_trie/src/op.rs`, `lr_trie/src/absorb_op.rs`) -/

/-- `Operation`: a logged mutation carrying the version at which it was
logged.  `Extend` appears in `trie.rs` and `absorb_op.rs`. -/
inductive Operation where
  | Add : KeyHash × Option OwnedValue → Nat → Operation
  | Remove : KeyHash → Nat → Operation
  | Extend : List (KeyHash × Option OwnedValue) → Nat → Operation
deriving DecidableEq, Repr

/-- `INCREMENT_ARG`: the number by which a version is incremented. -/
def INCREMENT_ARG : Nat := 1

/-- `increment_version` from `absorb_first`:
`vers.checked_add(INCREMENT_ARG).unwrap_or_default()` — the checked `u64`
addition yields the sum when it is representable and `u64::default() = 0` on
overflow. -/
def increment_version (vers : Nat) : Nat :=
  if vers + INCREMENT_ARG < 2 ^ 64 then vers + INCREMENT_ARG else 0

/-- The version an `Operation` was logged at. -/
def Operation.loggedVersion : Operation → Nat
  | .Add _ vers => vers
  | .Remove _ vers => vers
  | .Extend _ vers => vers

/-- The value-set an `Operation` submits to `put_value_set`. -/
def Operation.valueSet : Operation → List (KeyHash × Option OwnedValue)
  | .Add kv _ => [kv]
  | .Remove k _ => [(k, none)]
  | .Extend kvs _ => kvs

/-- `Absorb::absorb_first`: apply one logged operation to a tree copy —
`put_value_set` at `increment_version(vers)`, then write the node batch; on a
`put_value_set` error the failure is logged and the tree is left unchanged. -/
def absorb_first (t : JMT) (op : Operation) : JMT :=
  match op with
  | .Add kv vers =>
    match t.put_value_set [kv] (increment_version vers) with
    | .ok (t', batch) => t'.write_node_batch batch
    | .error _ => t
  | .Remove k vers =>
    match t.put_value_set [(k, none)] (increment_version vers) with
    | .ok (t', batch) => t'.write_node_batch batch
    | .error _ => t
  | .Extend kvs vers =>
    match t.put_value_set kvs (increment_version vers) with
    | .ok (t', batch) => t'.write_node_batch batch
    | .error _ => t

/-! ## The concurrent front-end (`lr_trie/src/trie.rs`)

Modelled from the spec where the `left_right` crate is involved: readers see
the visible copy; `append` pushes an operation on the log; `publish` absorbs
every logged operation into the stale copy and flips it to visible, so its
reader-observable effect is folding `absorb_first` over the log and draining
it (§4.6). -/

/-- The reader-observable state of a `LeftRightTrie`: the visible tree copy
and the log of operations appended since the last publish. -/
structure LeftRightTrie where
  visible : JMT
  log : List Operation
deriving DecidableEq, Repr

/-- `LeftRightTrie::new(db)`: both copies start as the empty tree. -/
def LeftRightTrie.new : LeftRightTrie := ⟨JMT.empty, []⟩

/-- `LeftRightTrie::version`: reads the visible copy through a handle. -/
def LeftRightTrie.version (s : LeftRightTrie) : Nat := s.visible.version

/-- `WriteHandle::append`: push an operation on the log. -/
def LeftRightTrie.append (s : LeftRightTrie) (op : Operation) : LeftRightTrie :=
  { s with log := s.log ++ [op] }

/-- `LeftRightTrie::publish` / `WriteHandle::publish`: absorb the logged
operations into the stale copy and make it visible, emptying the log. -/
def LeftRightTrie.publish (s : LeftRightTrie) : LeftRightTrie :=
  ⟨s.log.foldl absorb_first s.visible, []⟩

/-- `LeftRightTrie::insert`: append an `Add` of the hashed key and encoded
value at the currently visible version, then immediately `publish`. -/
def LeftRightTrie.insert {κ ν : Type} (hashK : κ → KeyHash) (encV : ν → OwnedValue)
    (s : LeftRightTrie) (key : κ) (value : ν) : LeftRightTrie :=
  (s.append (.Add (hashK key, some (encV value)) s.version)).publish

/-- `LeftRightTrie::extend`: append an `Extend` of the hashed and encoded
pairs at the currently visible version, then immediately `publish`. -/
def LeftRightTrie.extend {κ ν : Type} (hashK : κ → KeyHash) (encV : ν → OwnedValue)
    (s : LeftRightTrie) (values : List (κ × Option ν)) : LeftRightTrie :=
  (s.append (.Extend (values.map (fun kv => (hashK kv.1, kv.2.map encV))) s.version)).publish

/-- The tree produced by inserting value `3` under key `7` (hash `7`, encoding
`[3]`) into the empty tree; used to evaluate the wrapper theorems. -/
def sampleInserted : JMT := ⟨[(7, [(1, some [3])])], 1, [⟨1, [(7, some [3])]⟩]⟩

/-- The tree produced by then removing key `7` from `sampleInserted`. -/
def sampleRemoved : JMT :=
  ⟨[(7, [(1, some [3]), (2, none)])], 2, [⟨1, [(7, some [3])]⟩, ⟨2, [(7, none)]⟩]⟩

/-- The backend-call sequence of the repository's `test_insert`: two inserts
under `"claims"` and one under `"state"` (family names as UTF-8 bytes). -/
def sampleOps : List DbOp :=
  [.insertOp (.ok [1]) (.ok [10]) ⟨[99, 108, 97, 105, 109, 115]⟩,
   .insertOp (.ok [2]) (.ok [20]) ⟨[99, 108, 97, 105, 109, 115]⟩,
   .insertOp (.ok [3]) (.ok [30]) ⟨[115, 116, 97, 116, 101]⟩]

/-- The structural invariant of the in-memory backend: column-family names and
storage keys are unique, each family's list holds distinct keys carrying that
family's 8-byte prefix, a key is stored exactly when some family lists it, and
the family lists account for every stored entry. -/
structure DbInv (db : PebbleDB) : Prop where
  namesNodup : (db.cfs.map Prod.fst).Nodup
  keysNodup : (db.inner.map Prod.fst).Nodup
  listsNodup : ∀ c ∈ db.cfs, c.2.Nodup
  prefixOk : ∀ c ∈ db.cfs, ∀ pk ∈ c.2, pk.take 8 = c.1.cf_key
  memIff : ∀ pk, pk ∈ db.inner.map Prod.fst ↔ ∃ c ∈ db.cfs, pk ∈ c.2
  sumOk : (db.cfs.map (fun c => c.2.length)).sum = db.inner.length

/-! ## Helper lemmas -/

theorem cfsFind_append_of_none (cfs : List (ColumnFamily × List (List Nat)))
    (cf : ColumnFamily) (l : List (List Nat)) (h : cfsFind cfs cf = none) :
    cfsFind (cfs ++ [(cf, l)]) cf = some l := by
  induction cfs with
  | nil => simp [cfsFind]
  | cons p rest ih =>
    by_cases hp : p.1 = cf
    · simp [cfsFind, hp] at h
    · simp only [cfsFind, hp, if_neg, List.cons_append, ite_false] at h ⊢
      exact ih h

theorem histOf_assocAppend_self (h : List (KeyHash × List (Nat × Option OwnedValue)))
    (k : KeyHash) (e : Nat × Option OwnedValue) :
    histOf (assocAppend h k e) k = histOf h k ++ [e] := by
  induction h with
  | nil => simp [assocAppend, histOf]
  | cons p rest ih =>
    by_cases hp : p.1 = k
    · simp [assocAppend, histOf, hp]
    · simp [assocAppend, histOf, hp, ih]

theorem entryAt_append_last (l : List (Nat × Option OwnedValue)) (v : Nat)
    (x : Option OwnedValue) (hall : ∀ e ∈ l, e.1 ≤ v) :
    entryAt (l ++ [(v, x)]) v = some (v, x) := by
  induction l with
  | nil => simp [entryAt]
  | cons e rest ih =>
    have he : e.1 ≤ v := hall e (by simp)
    have hr : entryAt (rest ++ [(v, x)]) v = some (v, x) :=
      ih (fun a ha => hall a (by simp [ha]))
    simp [entryAt, hr, he]

theorem histOf_le_of_forall (h : List (KeyHash × List (Nat × Option OwnedValue)))
    (k : KeyHash) (vmax : Nat) (hall : ∀ p ∈ h, ∀ e ∈ p.2, e.1 ≤ vmax) :
    ∀ e ∈ histOf h k, e.1 ≤ vmax := by
  induction h with
  | nil => simp [histOf]
  | cons p rest ih =>
    by_cases hp : p.1 = k
    · simpa [histOf, hp] using hall p (by simp)
    · simp only [histOf, hp, ite_false]
      exact ih (fun q hq => hall q (by simp [hq]))

/-! ## Claims -/

/-- C1: for every key `K` and value `V`, after a successful
`JellyfishMerkleTreeWrapper::insert(K, V)` producing version `v`
(`= t'.version`), `get(K, v)` returns `V` and `contains(K, v)` returns true.
Requires the codec to round-trip on `V` and the tree's history to be within
its version (both hold for every reachable tree). -/
theorem insert_get_roundtrip {κ ν : Type} (hashK : κ → KeyHash) (encV : ν → OwnedValue)
    (decV : OwnedValue → Option ν) (t t' : JMT) (key : κ) (value : ν)
    (hcodec : decV (encV value) = some value) (hwf : t.WF)
    (hins : JellyfishMerkleTreeWrapper.insert hashK encV t key value = .ok t') :
    JellyfishMerkleTreeWrapper.get hashK decV t' key t'.version = .ok value ∧
    JellyfishMerkleTreeWrapper.contains hashK t' key t'.version = .ok true := by
  unfold JellyfishMerkleTreeWrapper.insert at hins
  rw [JMT.put_value_set, if_neg (by omega)] at hins
  simp only [dedupLast, List.foldl_cons, List.foldl_nil, List.filter_nil,
    List.nil_append, Except.ok.injEq] at hins
  subst hins
  have hhist : histOf (assocAppend t.history (hashK key)
      (t.version + 1, some (encV value))) (hashK key) =
      histOf t.history (hashK key) ++ [(t.version + 1, some (encV value))] :=
    histOf_assocAppend_self _ _ _
  have hle : ∀ e ∈ histOf t.history (hashK key), e.1 ≤ t.version + 1 := by
    intro e he
    exact Nat.le_succ_of_le (histOf_le_of_forall _ _ _ hwf e he)
  have hentry := entryAt_append_last (histOf t.history (hashK key)) (t.version + 1)
    (some (encV value)) hle
  constructor
  · unfold JellyfishMerkleTreeWrapper.get
    simp [JMT.write_node_batch, JMT.get, hhist, hentry, hcodec]
  · unfold JellyfishMerkleTreeWrapper.contains
    simp [JMT.write_node_batch, JMT.contains, JMT.get, hhist, hentry]

/-- C1 witness: inserting `3` under key `7` into the empty tree produces
`sampleInserted`, whose version reads back the value. -/
theorem insert_get_roundtrip_witness :
    JellyfishMerkleTreeWrapper.get (fun n : Nat => n) (fun l : OwnedValue => l.head?)
      sampleInserted 7 sampleInserted.version = .ok 3 ∧
    JellyfishMerkleTreeWrapper.contains (fun n : Nat => n) sampleInserted 7
      sampleInserted.version = .ok true :=
  insert_get_roundtrip (fun n : Nat => n) (fun n : Nat => [n])
    (fun l : OwnedValue => l.head?) JMT.empty sampleInserted 7 3
    (by decide) (by decide) (by decide)

/-- C2 counterexample: `LeftRightTrie::insert` does not leave the
reader-visible copy unchanged — inserting into a fresh trie changes the
visible copy within the very call, with no separate `publish()`. -/
theorem lr_insert_modifies_visible_cx :
    (LeftRightTrie.new.insert (fun n : Nat => n) (fun n : Nat => [n]) 0 1).visible ≠
      LeftRightTrie.new.visible := by decide

/-- C2 amended: `LeftRightTrie::insert` and `extend` append the corresponding
`Operation` to the log and then immediately call `publish` within the same
call, so the logged operation (after any previously logged ones) is applied to
the reader-visible copy before the call returns, and the log is left empty;
`LeftRightTrie` has no `remove` method. -/
theorem lr_insert_extend_publish_immediately {κ ν : Type} (hashK : κ → KeyHash)
    (encV : ν → OwnedValue) (s : LeftRightTrie) (key : κ) (value : ν)
    (values : List (κ × Option ν)) :
    ((s.insert hashK encV key value).visible =
        absorb_first (s.log.foldl absorb_first s.visible)
          (.Add (hashK key, some (encV value)) s.version) ∧
      (s.insert hashK encV key value).log = []) ∧
    ((s.extend hashK encV values).visible =
        absorb_first (s.log.foldl absorb_first s.visible)
          (.Extend (values.map (fun kv => (hashK kv.1, kv.2.map encV))) s.version) ∧
      (s.extend hashK encV values).log = []) := by
  simp [LeftRightTrie.insert, LeftRightTrie.extend, LeftRightTrie.append,
    LeftRightTrie.publish, List.foldl_append]

/-- C3 counterexample: the effective version is not `n + 1` for every logged
version `n` — at `n = u64::MAX` the checked increment overflows and
`unwrap_or_default()` yields `0`. -/
theorem increment_version_overflow_cx :
    increment_version (2 ^ 64 - 1) ≠ 2 ^ 64 - 1 + 1 := by decide

/-- C3 amended: for every `Operation` carrying logged version `n` such that
`n + 1` is representable in `u64`, `absorb_first` invokes `put_value_set` at
effective version exactly `n + 1` (and applies the produced batch); at
`n = u64::MAX` the checked increment yields `0` instead. -/
theorem absorb_first_effective_version (t : JMT) (op : Operation)
    (h : op.loggedVersion + INCREMENT_ARG < 2 ^ 64) :
    absorb_first t op =
      match t.put_value_set op.valueSet (op.loggedVersion + 1) with
      | .ok (t', batch) => t'.write_node_batch batch
      | .error _ => t := by
  have hiv : increment_version op.loggedVersion = op.loggedVersion + 1 := by
    unfold increment_version
    rw [if_pos h]
    rfl
  cases op <;>
    simp only [absorb_first, Operation.valueSet, Operation.loggedVersion] at hiv ⊢ <;>
    rw [hiv]

/-- C3 witness: at logged version `5`, `absorb_first` behaves as
`put_value_set` at version `6`. -/
theorem absorb_first_effective_version_witness :
    (Operation.Add ((0 : KeyHash), none) 5).loggedVersion + INCREMENT_ARG < 2 ^ 64 ∧
    absorb_first JMT.empty (.Add ((0 : KeyHash), none) 5) =
      match JMT.empty.put_value_set (Operation.Add ((0 : KeyHash), none) 5).valueSet
          ((Operation.Add ((0 : KeyHash), none) 5).loggedVersion + 1) with
      | .ok (t', batch) => t'.write_node_batch batch
      | .error _ => JMT.empty :=
  ⟨by decide, absorb_first_effective_version JMT.empty (.Add (0, none) 5) (by decide)⟩

/-- C4 counterexample: at a key and version with no `Some` value (the empty
tree), the wrapper's `get` does not return the `NotFound` error. -/
theorem get_missing_not_notfound_cx :
    JMT.empty.get 0 0 = none ∧
    JellyfishMerkleTreeWrapper.get (fun n : Nat => n) (fun l : OwnedValue => l.head?)
      JMT.empty 0 0 ≠ .error LeftRightTrieError.NotFound := by decide

/-- C4 amended: for every key and version at which the key has no `Some`
value, `JellyfishMerkleTreeWrapper::get` returns an error, namely
`Other("received none value from inner trie")` rather than `NotFound`. -/
theorem get_missing_returns_other {κ ν : Type} (hashK : κ → KeyHash)
    (decV : OwnedValue → Option ν) (t : JMT) (key : κ) (version : Nat)
    (h : t.get (hashK key) version = none) :
    JellyfishMerkleTreeWrapper.get hashK decV t key version =
      .error (.Other "received none value from inner trie") := by
  unfold JellyfishMerkleTreeWrapper.get
  rw [h]

/-- C4 witness: reading key `7` at version `3` of the empty tree. -/
theorem get_missing_returns_other_witness :
    JMT.empty.get 7 3 = none ∧
    JellyfishMerkleTreeWrapper.get (fun n : Nat => n) (fun l : OwnedValue => l.head?)
      JMT.empty 7 3 = .error (.Other "received none value from inner trie") :=
  ⟨by decide, get_missing_returns_other (fun n : Nat => n)
    (fun l : OwnedValue => l.head?) JMT.empty 7 3 (by decide)⟩

/-- C5: a successful `JellyfishMerkleTreeWrapper::remove(K)` returns true if
and only if `contains(K, v)` is false at the new version `v = t'.version`
produced by the removal. -/
theorem remove_true_iff_not_contains {κ : Type} (hashK : κ → KeyHash)
    (t t' : JMT) (key : κ) (b : Bool)
    (h : JellyfishMerkleTreeWrapper.remove hashK t key = .ok (t', b)) :
    (b = true ↔ JellyfishMerkleTreeWrapper.contains hashK t' key t'.version = .ok false) := by
  simp only [JellyfishMerkleTreeWrapper.remove, JMT.put_value_set] at h
  rw [if_neg (by omega)] at h
  simp only [Except.ok.injEq, Prod.mk.injEq] at h
  obtain ⟨ht, hb⟩ := h
  subst ht
  subst hb
  unfold JellyfishMerkleTreeWrapper.contains
  simp only [JMT.write_node_batch]
  cases hc : JMT.contains _ (hashK key) (t.version + 1) <;> simp_all

/-- C5 witness: removing key `7` from `sampleInserted` returns `true` and
`contains` is false at the new version. -/
theorem remove_true_iff_not_contains_witness :
    (true = true ↔ JellyfishMerkleTreeWrapper.contains (fun n : Nat => n) sampleRemoved 7
      sampleRemoved.version = .ok false) :=
  remove_true_iff_not_contains (fun n : Nat => n) sampleInserted sampleRemoved 7 true
    (by decide)

/-- C6: `JellyfishMerkleTreeWrapper::insert` invokes `put_value_set` at
`version() + 1` and persists the resulting node batch through the backend's
`TreeWriter`; after a successful insert the tree's version is greater by
exactly 1 than before the call. -/
theorem insert_bumps_version_and_persists {κ ν : Type} (hashK : κ → KeyHash)
    (encV : ν → OwnedValue) (t t' : JMT) (key : κ) (value : ν)
    (h : JellyfishMerkleTreeWrapper.insert hashK encV t key value = .ok t') :
    t'.version = t.version + 1 ∧
    t'.nodes = t.nodes ++ [⟨t.version + 1, [(hashK key, some (encV value))]⟩] := by
  unfold JellyfishMerkleTreeWrapper.insert at h
  rw [JMT.put_value_set, if_neg (by omega)] at h
  simp only [dedupLast, List.foldl_cons, List.foldl_nil, List.filter_nil,
    List.nil_append, Except.ok.injEq] at h
  subst h
  simp [JMT.write_node_batch]

/-- C6 witness: inserting into the empty tree bumps the version from 0 to 1
and persists the batch. -/
theorem insert_bumps_version_and_persists_witness :
    sampleInserted.version = JMT.empty.version + 1 ∧
    sampleInserted.nodes =
      JMT.empty.nodes ++ [⟨JMT.empty.version + 1, [(7, some [3])]⟩] :=
  insert_bumps_version_and_persists (fun n : Nat => n) (fun n : Nat => [n])
    JMT.empty sampleInserted 7 3 (by decide)

/-- C8: `PebbleDB::new_cf` is idempotent — with a name that already exists it
returns success leaving the column-family map unchanged, and calling it twice
is equivalent to calling it once. -/
theorem new_cf_idempotent (db : PebbleDB) (cf : ColumnFamily) :
    (db.cf_exists cf = true → db.new_cf cf = .ok db) ∧
    (∀ d, db.new_cf cf = .ok d → d.new_cf cf = .ok d) := by
  constructor
  · intro h
    simp [PebbleDB.new_cf, h]
  · intro d hd
    unfold PebbleDB.new_cf at hd
    by_cases h : db.cf_exists cf
    · simp only [h, Bool.not_true, Bool.false_eq_true, if_false, Except.ok.injEq] at hd
      subst hd
      simp [PebbleDB.new_cf, h]
    · simp only [h, Bool.not_false, if_true, Except.ok.injEq] at hd
      subst hd
      have hnone : cfsFind db.cfs cf = none := by
        unfold PebbleDB.cf_exists at h
        exact Option.not_isSome_iff_eq_none.mp (by simpa using h)
      have : PebbleDB.cf_exists ⟨db.inner, db.cfs ++ [(cf, [])]⟩ cf = true := by
        unfold PebbleDB.cf_exists
        rw [cfsFind_append_of_none db.cfs cf [] hnone]
        rfl
      simp [PebbleDB.new_cf, this]

/-- C8 witness: a backend already holding family `[99]`, and the result of
registering `[99]` on the empty backend, both absorb a further `new_cf`. -/
theorem new_cf_idempotent_witness :
    PebbleDB.new_cf ⟨[], [(⟨[99]⟩, [])]⟩ ⟨[99]⟩ = .ok ⟨[], [(⟨[99]⟩, [])]⟩ ∧
    PebbleDB.new_cf ⟨[], [(⟨[99]⟩, [])]⟩ ⟨[99]⟩ = .ok ⟨[], [(⟨[99]⟩, [])]⟩ :=
  ⟨(new_cf_idempotent ⟨[], [(⟨[99]⟩, [])]⟩ ⟨[99]⟩).1 (by decide),
   (new_cf_idempotent PebbleDB.empty ⟨[99]⟩).2 ⟨[], [(⟨[99]⟩, [])]⟩ (by decide)⟩

/-- C9: converting a byte sequence to a `ColumnFamily` never fails — invalid
UTF-8 falls back to the default family, valid UTF-8 yields the family with
the decoded name (a Rust `String` being its UTF-8 bytes). -/
theorem from_bytes_utf8_fallback (bytes : List Nat) :
    (validUTF8 bytes = false → ColumnFamily.fromBytes bytes = ColumnFamily.default) ∧
    (validUTF8 bytes = true → ColumnFamily.fromBytes bytes = ⟨bytes⟩) := by
  constructor <;> intro h <;> simp [ColumnFamily.fromBytes, h]

/-- C9 witness: the lone byte `0xFF` is invalid UTF-8 and falls back to the
default family; the bytes of `"hi"` decode to that name. -/
theorem from_bytes_utf8_fallback_witness :
    ColumnFamily.fromBytes [0xFF] = ColumnFamily.default ∧
    ColumnFamily.fromBytes [104, 105] = ⟨[104, 105]⟩ :=
  ⟨(from_bytes_utf8_fallback [0xFF]).1 (by decide),
   (from_bytes_utf8_fallback [104, 105]).2 (by decide)⟩

/-- C10: `PebbleDB::insert` is atomic with respect to errors — if the
serialization of the key or the value fails, both the storage map and the
column-family map are exactly as they were before the call. -/
theorem insert_error_atomic (db : PebbleDB) (encKey encVal : Except String (List Nat))
    (cf : ColumnFamily) (e : String)
    (h : (db.insert encKey encVal cf).2 = some e) :
    (db.insert encKey encVal cf).1 = db := by
  cases encKey <;> cases encVal <;> simp [PebbleDB.insert] at h ⊢

theorem cf_key_length (cf : ColumnFamily) : cf.cf_key.length = 8 := by
  simp [ColumnFamily.cf_key, toBEBytes8]

theorem take_cf_key_append (cf : ColumnFamily) (k : List Nat) :
    (cf.cf_key ++ k).take 8 = cf.cf_key := by
  rw [← cf_key_length cf]
  exact List.take_left cf.cf_key k

theorem cfsFind_eq_none_iff (cfs : List (ColumnFamily × List (List Nat)))
    (cf : ColumnFamily) :
    cfsFind cfs cf = none ↔ cf ∉ cfs.map Prod.fst := by
  induction cfs with
  | nil => simp [cfsFind]
  | cons p rest ih =>
    by_cases hp : p.1 = cf
    · simp [cfsFind, hp]
    · simp only [cfsFind, hp, ite_false, List.map_cons, List.mem_cons]
      rw [ih]
      constructor
      · intro h hmem
        rcases hmem with h1 | h2
        · exact hp h1.symm
        · exact h h2
      · intro h hmem
        exact h (Or.inr hmem)

theorem cfsFind_some_mem (cfs : List (ColumnFamily × List (List Nat)))
    (cf : ColumnFamily) (L : List (List Nat)) (h : cfsFind cfs cf = some L) :
    (cf, L) ∈ cfs := by
  induction cfs with
  | nil => simp [cfsFind] at h
  | cons p rest ih =>
    obtain ⟨p1, p2⟩ := p
    by_cases hp : p1 = cf
    · subst hp
      simp only [cfsFind, ite_true, Option.some.injEq] at h
      subst h
      exact List.mem_cons_self _ _
    · simp only [cfsFind, hp, ite_false] at h
      exact List.mem_cons_of_mem _ (ih h)

theorem idxInsert_map_fst_of_mem (m : List (List Nat × List Nat)) (k v : List Nat)
    (h : k ∈ m.map Prod.fst) :
    (idxInsert m k v).map Prod.fst = m.map Prod.fst := by
  induction m with
  | nil => simp at h
  | cons p rest ih =>
    by_cases hp : p.1 = k
    · simp [idxInsert, hp]
    · have : k ∈ rest.map Prod.fst := by
        simp only [List.map_cons, List.mem_cons] at h
        exact h.resolve_left (fun hh => hp hh.symm)
      simp [idxInsert, hp, ih this]

theorem idxInsert_map_fst_of_not_mem (m : List (List Nat × List Nat)) (k v : List Nat)
    (h : k ∉ m.map Prod.fst) :
    (idxInsert m k v).map Prod.fst = m.map Prod.fst ++ [k] := by
  induction m with
  | nil => simp [idxInsert]
  | cons p rest ih =>
    simp only [List.map_cons, List.mem_cons] at h
    push_neg at h
    have hp : p.1 ≠ k := fun hh => h.1 hh.symm
    simp [idxInsert, hp, ih h.2]

theorem idxInsert_length_of_mem (m : List (List Nat × List Nat)) (k v : List Nat)
    (h : k ∈ m.map Prod.fst) : (idxInsert m k v).length = m.length := by
  have := congrArg List.length (idxInsert_map_fst_of_mem m k v h)
  simpa using this

theorem idxInsert_length_of_not_mem (m : List (List Nat × List Nat)) (k v : List Nat)
    (h : k ∉ m.map Prod.fst) : (idxInsert m k v).length = m.length + 1 := by
  have := congrArg List.length (idxInsert_map_fst_of_not_mem m k v h)
  simpa using this

theorem cfsInsertKey_of_none (cfs : List (ColumnFamily × List (List Nat)))
    (cf : ColumnFamily) (pk : List Nat) (h : cfsFind cfs cf = none) :
    cfsInsertKey cfs cf pk = cfs ++ [(cf, [pk])] := by
  induction cfs with
  | nil => simp [cfsInsertKey]
  | cons p rest ih =>
    by_cases hp : p.1 = cf
    · simp [cfsFind, hp] at h
    · simp only [cfsFind, hp, ite_false] at h
      simp [cfsInsertKey, hp, ih h]

theorem cfsInsertKey_of_some_mem (cfs : List (ColumnFamily × List (List Nat)))
    (cf : ColumnFamily) (pk : List Nat) (L : List (List Nat))
    (h : cfsFind cfs cf = some L) (hpk : pk ∈ L) :
    cfsInsertKey cfs cf pk = cfs := by
  induction cfs with
  | nil => simp [cfsFind] at h
  | cons p rest ih =>
    obtain ⟨p1, p2⟩ := p
    by_cases hp : p1 = cf
    · subst hp
      simp only [cfsFind, ite_true, Option.some.injEq] at h
      subst h
      simp [cfsInsertKey, hpk]
    · simp only [cfsFind, hp, ite_false] at h
      simp [cfsInsertKey, hp, ih h]

theorem cfsInsertKey_of_some_not_mem (cfs : List (ColumnFamily × List (List Nat)))
    (cf : ColumnFamily) (pk : List Nat) (L : List (List Nat))
    (h : cfsFind cfs cf = some L) (hpk : pk ∉ L) :
    ∃ pre post, cfs = pre ++ (cf, L) :: post ∧
      cfsInsertKey cfs cf pk = pre ++ (cf, L ++ [pk]) :: post := by
  induction cfs with
  | nil => simp [cfsFind] at h
  | cons p rest ih =>
    by_cases hp : p.1 = cf
    · simp only [cfsFind, hp, ite_true, Option.some.injEq] at h
      subst h
      refine ⟨[], rest, ?_, ?_⟩
      · simp [← hp]
      · simp [cfsInsertKey, hp, hpk]
    · simp only [cfsFind, hp, ite_false] at h
      obtain ⟨pre, post, hsplit, hresult⟩ := ih h
      exact ⟨p :: pre, post, by simp [hsplit], by simp [cfsInsertKey, hp, hresult]⟩

theorem eq_of_mem_of_nodup_fst {α β : Type _} (l : List (α × β))
    (h : (l.map Prod.fst).Nodup) (a b : α × β) (ha : a ∈ l) (hb : b ∈ l)
    (hfst : a.1 = b.1) : a = b := by
  induction l with
  | nil => simp at ha
  | cons p rest ih =>
    simp only [List.map_cons, List.nodup_cons] at h
    rcases List.mem_cons.mp ha with ha1 | ha2 <;>
      rcases List.mem_cons.mp hb with hb1 | hb2
    · rw [ha1, hb1]
    · exfalso
      have hmem : b.1 ∈ rest.map Prod.fst := List.mem_map_of_mem Prod.fst hb2
      rw [← hfst, ha1] at hmem
      exact h.1 hmem
    · exfalso
      have hmem : a.1 ∈ rest.map Prod.fst := List.mem_map_of_mem Prod.fst ha2
      rw [hfst, hb1] at hmem
      exact h.1 hmem
    · exact ih h.2 ha2 hb2

theorem countP_eq_one_of_unique_fst {α β : Type _} [DecidableEq α]
    (l : List (α × β)) (h : (l.map Prod.fst).Nodup) (c₀ : α × β) (hc₀ : c₀ ∈ l)
    (p : α × β → Bool) (hp : ∀ c ∈ l, p c = true ↔ c.1 = c₀.1) :
    l.countP p = 1 := by
  induction l with
  | nil => simp at hc₀
  | cons c rest ih =>
    simp only [List.map_cons, List.nodup_cons] at h
    by_cases hcc : c.1 = c₀.1
    · have hpc : p c = true := (hp c (List.mem_cons_self c rest)).mpr hcc
      rw [List.countP_cons_of_pos p rest hpc]
      have hrest : rest.countP p = 0 := by
        rw [List.countP_eq_zero]
        intro a ha hpa
        have hfst : a.1 = c₀.1 := (hp a (List.mem_cons_of_mem c ha)).mp hpa
        have hmem : a.1 ∈ rest.map Prod.fst := List.mem_map_of_mem Prod.fst ha
        rw [hfst, ← hcc] at hmem
        exact h.1 hmem
      rw [hrest]
    · have hpc : ¬ p c = true := fun hh => hcc ((hp c (List.mem_cons_self c rest)).mp hh)
      rw [List.countP_cons_of_neg p rest hpc]
      have hc₀rest : c₀ ∈ rest := by
        rcases List.mem_cons.mp hc₀ with h1 | h2
        · exact absurd (congrArg Prod.fst h1).symm hcc
        · exact h2
      exact ih h.2 hc₀rest (fun a ha => hp a (List.mem_cons_of_mem c ha))

theorem dbStep_preserves_inv (db : PebbleDB) (op : DbOp) (S : List ColumnFamily)
    (hinj : ∀ c1 ∈ S, ∀ c2 ∈ S, c1.cf_key = c2.cf_key → c1 = c2)
    (hop : op.cfName ∈ S)
    (hsub : ∀ c ∈ db.cfs.map Prod.fst, c ∈ S)
    (hdb : DbInv db) :
    DbInv (dbStep db op) ∧ ∀ c ∈ (dbStep db op).cfs.map Prod.fst, c ∈ S := by
  cases op with
  | newCfOp cf =>
    by_cases hex : db.cf_exists cf
    · have hstep : dbStep db (.newCfOp cf) = db := by
        simp [dbStep, PebbleDB.new_cf, hex]
      rw [hstep]
      exact ⟨hdb, hsub⟩
    · have hnone : cfsFind db.cfs cf = none := by
        unfold PebbleDB.cf_exists at hex
        exact Option.not_isSome_iff_eq_none.mp (by simpa using hex)
      have hnotmem : cf ∉ db.cfs.map Prod.fst := (cfsFind_eq_none_iff _ _).mp hnone
      have hstep : dbStep db (.newCfOp cf) = ⟨db.inner, db.cfs ++ [(cf, [])]⟩ := by
        simp [dbStep, PebbleDB.new_cf, hex]
      rw [hstep]
      refine ⟨⟨?_, hdb.keysNodup, ?_, ?_, ?_, ?_⟩, ?_⟩
      · rw [List.map_append]
        exact hdb.namesNodup.append (by simp)
          (fun a ha hb => by simp at hb; exact hnotmem (hb ▸ ha))
      · intro c hc
        rcases List.mem_append.mp hc with h1 | h2
        · exact hdb.listsNodup c h1
        · simp at h2
          rw [h2]
          simp
      · intro c hc q hq
        rcases List.mem_append.mp hc with h1 | h2
        · exact hdb.prefixOk c h1 q hq
        · simp at h2
          rw [h2] at hq
          simp at hq
      · intro q
        rw [hdb.memIff q]
        constructor
        · rintro ⟨c, hc, hqc⟩
          exact ⟨c, List.mem_append_left _ hc, hqc⟩
        · rintro ⟨c, hc, hqc⟩
          rcases List.mem_append.mp hc with h1 | h2
          · exact ⟨c, h1, hqc⟩
          · simp at h2
            rw [h2] at hqc
            simp at hqc
      · simp [List.map_append, List.sum_append, hdb.sumOk]
      · intro c hc
        rw [List.map_append] at hc
        rcases List.mem_append.mp hc with h1 | h2
        · exact hsub c h1
        · simp at h2
          exact h2 ▸ hop
  | insertOp ek ev cf =>
    cases ek with
    | error e =>
      have hstep : dbStep db (.insertOp (.error e) ev cf) = db := by
        simp [dbStep, PebbleDB.insert]
      rw [hstep]
      exact ⟨hdb, hsub⟩
    | ok key =>
      cases ev with
      | error e =>
        have hstep : dbStep db (.insertOp (.ok key) (.error e) cf) = db := by
          simp [dbStep, PebbleDB.insert]
        rw [hstep]
        exact ⟨hdb, hsub⟩
      | ok val =>
        have hstep : dbStep db (.insertOp (.ok key) (.ok val) cf) =
            ⟨idxInsert db.inner (cf.cf_key ++ key) val,
             cfsInsertKey db.cfs cf (cf.cf_key ++ key)⟩ := by
          simp [dbStep, PebbleDB.insert]
        have htake : (cf.cf_key ++ key).take 8 = cf.cf_key := take_cf_key_append cf key
        have hname : ∀ c₀ ∈ db.cfs, (cf.cf_key ++ key) ∈ c₀.2 → c₀.1 = cf := by
          intro c₀ hc₀ hpk
          have h1 : (cf.cf_key ++ key).take 8 = c₀.1.cf_key := hdb.prefixOk c₀ hc₀ _ hpk
          have h2 : c₀.1.cf_key = cf.cf_key := by rw [← h1, htake]
          exact hinj c₀.1 (hsub _ (List.mem_map_of_mem Prod.fst hc₀)) cf hop h2
        rw [hstep]
        cases hfind : cfsFind db.cfs cf with
        | none =>
          have hck : cfsInsertKey db.cfs cf (cf.cf_key ++ key) =
              db.cfs ++ [(cf, [cf.cf_key ++ key])] := cfsInsertKey_of_none _ _ _ hfind
          have hcfnot : cf ∉ db.cfs.map Prod.fst := (cfsFind_eq_none_iff _ _).mp hfind
          have hpknot : (cf.cf_key ++ key) ∉ db.inner.map Prod.fst := by
            intro hmem
            obtain ⟨c₀, hc₀, hpk⟩ := (hdb.memIff _).mp hmem
            have hc₀cf := hname c₀ hc₀ hpk
            exact hcfnot (hc₀cf ▸ List.mem_map_of_mem Prod.fst hc₀)
          have hidx : (idxInsert db.inner (cf.cf_key ++ key) val).map Prod.fst =
              db.inner.map Prod.fst ++ [cf.cf_key ++ key] :=
            idxInsert_map_fst_of_not_mem _ _ _ hpknot
          rw [hck]
          refine ⟨⟨?_, ?_, ?_, ?_, ?_, ?_⟩, ?_⟩
          · rw [List.map_append]
            exact hdb.namesNodup.append (by simp)
              (fun a ha hb => by simp at hb; exact hcfnot (hb ▸ ha))
          · rw [hidx]
            exact hdb.keysNodup.append (by simp)
              (fun a ha hb => by simp at hb; exact hpknot (hb ▸ ha))
          · intro c hc
            rcases List.mem_append.mp hc with h1 | h2
            · exact hdb.listsNodup c h1
            · simp at h2
              rw [h2]
              simp
          · intro c hc q hq
            rcases List.mem_append.mp hc with h1 | h2
            · exact hdb.prefixOk c h1 q hq
            · simp at h2
              rw [h2] at hq ⊢
              simp at hq
              rw [hq]
              simpa using htake
          · intro q
            rw [hidx, List.mem_append]
            constructor
            · rintro (hq | hq)
              · obtain ⟨c, hc, hqc⟩ := (hdb.memIff q).mp hq
                exact ⟨c, List.mem_append_left _ hc, hqc⟩
              · simp at hq
                exact ⟨(cf, [cf.cf_key ++ key]), List.mem_append_right _ (by simp), by simp [hq]⟩
            · rintro ⟨c, hc, hqc⟩
              rcases List.mem_append.mp hc with h1 | h2
              · exact Or.inl ((hdb.memIff q).mpr ⟨c, h1, hqc⟩)
              · simp at h2
                rw [h2] at hqc
                simp at hqc
                exact Or.inr (by simp [hqc])
          · rw [idxInsert_length_of_not_mem _ _ _ hpknot]
            simp [List.map_append, List.sum_append, hdb.sumOk]
          · intro c hc
            rw [List.map_append] at hc
            rcases List.mem_append.mp hc with h1 | h2
            · exact hsub c h1
            · simp at h2
              exact h2 ▸ hop
        | some L =>
          have hcfm : (cf, L) ∈ db.cfs := cfsFind_some_mem _ _ _ hfind
          by_cases hpkL : (cf.cf_key ++ key) ∈ L
          · have hck : cfsInsertKey db.cfs cf (cf.cf_key ++ key) = db.cfs :=
              cfsInsertKey_of_some_mem _ _ _ _ hfind hpkL
            have hpkmem : (cf.cf_key ++ key) ∈ db.inner.map Prod.fst :=
              (hdb.memIff _).mpr ⟨(cf, L), hcfm, hpkL⟩
            have hidx : (idxInsert db.inner (cf.cf_key ++ key) val).map Prod.fst =
                db.inner.map Prod.fst := idxInsert_map_fst_of_mem _ _ _ hpkmem
            rw [hck]
            refine ⟨⟨hdb.namesNodup, ?_, hdb.listsNodup, hdb.prefixOk, ?_, ?_⟩, hsub⟩
            · show ((idxInsert db.inner (cf.cf_key ++ key) val).map Prod.fst).Nodup
              rw [hidx]
              exact hdb.keysNodup
            · intro q
              show q ∈ (idxInsert db.inner (cf.cf_key ++ key) val).map Prod.fst ↔ _
              rw [hidx]
              exact hdb.memIff q
            · show _ = (idxInsert db.inner (cf.cf_key ++ key) val).length
              rw [idxInsert_length_of_mem _ _ _ hpkmem]
              exact hdb.sumOk
          · obtain ⟨pre, post, hsplit, hresult⟩ :=
              cfsInsertKey_of_some_not_mem _ _ _ _ hfind hpkL
            have hpknot : (cf.cf_key ++ key) ∉ db.inner.map Prod.fst := by
              intro hmem
              obtain ⟨c₀, hc₀, hpk⟩ := (hdb.memIff _).mp hmem
              have hc₀cf : c₀.1 = cf := hname c₀ hc₀ hpk
              have hc₀eq : c₀ = (cf, L) :=
                eq_of_mem_of_nodup_fst db.cfs hdb.namesNodup c₀ (cf, L) hc₀ hcfm
                  (by rw [hc₀cf])
              rw [hc₀eq] at hpk
              exact hpkL hpk
            have hidx : (idxInsert db.inner (cf.cf_key ++ key) val).map Prod.fst =
                db.inner.map Prod.fst ++ [cf.cf_key ++ key] :=
              idxInsert_map_fst_of_not_mem _ _ _ hpknot
            have hLnodup : L.Nodup := hdb.listsNodup (cf, L) hcfm
            have hnames : (pre ++ (cf, L ++ [cf.cf_key ++ key]) :: post).map Prod.fst =
                db.cfs.map Prod.fst := by
              rw [hsplit]
              simp
            rw [hresult]
            refine ⟨⟨?_, ?_, ?_, ?_, ?_, ?_⟩, ?_⟩
            · rw [hnames]
              exact hdb.namesNodup
            · rw [hidx]
              exact hdb.keysNodup.append (by simp)
                (fun a ha hb => by simp at hb; exact hpknot (hb ▸ ha))
            · intro c hc
              rcases List.mem_append.mp hc with h1 | h2
              · exact hdb.listsNodup c (by rw [hsplit]; exact List.mem_append_left _ h1)
              · rcases List.mem_cons.mp h2 with h3 | h4
                · rw [h3]
                  exact hLnodup.append (by simp)
                    (fun a ha hb => by simp at hb; exact hpkL (hb ▸ ha))
                · exact hdb.listsNodup c
                    (by rw [hsplit]; exact List.mem_append_right _ (List.mem_cons_of_mem _ h4))
            · intro c hc q hq
              rcases List.mem_append.mp hc with h1 | h2
              · exact hdb.prefixOk c (by rw [hsplit]; exact List.mem_append_left _ h1) q hq
              · rcases List.mem_cons.mp h2 with h3 | h4
                · rw [h3] at hq ⊢
                  rcases List.mem_append.mp hq with h5 | h6
                  · exact hdb.prefixOk (cf, L)
                      (by rw [hsplit]; exact List.mem_append_right _ (List.mem_cons_self _ _))
                      q h5
                  · simp at h6
                    rw [h6]
                    simpa using htake
                · exact hdb.prefixOk c
                    (by rw [hsplit]; exact List.mem_append_right _ (List.mem_cons_of_mem _ h4))
                    q hq
            · intro q
              rw [hidx, List.mem_append]
              constructor
              · rintro (hq | hq)
                · obtain ⟨c, hc, hqc⟩ := (hdb.memIff q).mp hq
                  rw [hsplit] at hc
                  rcases List.mem_append.mp hc with h1 | h2
                  · exact ⟨c, List.mem_append_left _ h1, hqc⟩
                  · rcases List.mem_cons.mp h2 with h3 | h4
                    · refine ⟨(cf, L ++ [cf.cf_key ++ key]),
                        List.mem_append_right _ (List.mem_cons_self _ _), ?_⟩
                      rw [h3] at hqc
                      exact List.mem_append_left _ hqc
                    · exact ⟨c, List.mem_append_right _ (List.mem_cons_of_mem _ h4), hqc⟩
                · simp at hq
                  exact ⟨(cf, L ++ [cf.cf_key ++ key]),
                    List.mem_append_right _ (List.mem_cons_self _ _), by simp [hq]⟩
              · rintro ⟨c, hc, hqc⟩
                have hmid : (cf, L) ∈ db.cfs := hcfm
                rcases List.mem_append.mp hc with h1 | h2
                · have hcm : c ∈ db.cfs := by
                    rw [hsplit]
                    exact List.mem_append_left _ h1
                  exact Or.inl ((hdb.memIff q).mpr ⟨c, hcm, hqc⟩)
                · rcases List.mem_cons.mp h2 with h3 | h4
                  · rw [h3] at hqc
                    rcases List.mem_append.mp hqc with h5 | h6
                    · exact Or.inl ((hdb.memIff q).mpr ⟨(cf, L), hmid, h5⟩)
                    · exact Or.inr h6
                  · have hcm : c ∈ db.cfs := by
                      rw [hsplit]
                      exact List.mem_append_right _ (List.mem_cons_of_mem _ h4)
                    exact Or.inl ((hdb.memIff q).mpr ⟨c, hcm, hqc⟩)
            · rw [idxInsert_length_of_not_mem _ _ _ hpknot]
              have hold := hdb.sumOk
              rw [hsplit] at hold
              simp only [List.map_append, List.map_cons, List.sum_append,
                List.sum_cons, List.length_append, List.length_cons,
                List.length_nil] at hold ⊢
              omega
            · intro c hc
              rw [hnames] at hc
              exact hsub c hc

theorem foldl_dbStep_inv (ops : List DbOp) (db : PebbleDB) (S : List ColumnFamily)
    (hinj : ∀ c1 ∈ S, ∀ c2 ∈ S, c1.cf_key = c2.cf_key → c1 = c2)
    (hops : ∀ op ∈ ops, op.cfName ∈ S)
    (hsub : ∀ c ∈ db.cfs.map Prod.fst, c ∈ S)
    (hdb : DbInv db) :
    DbInv (ops.foldl dbStep db) ∧
      ∀ c ∈ (ops.foldl dbStep db).cfs.map Prod.fst, c ∈ S := by
  induction ops generalizing db with
  | nil => exact ⟨hdb, hsub⟩
  | cons op rest ih =>
    obtain ⟨hinv, hsub'⟩ :=
      dbStep_preserves_inv db op S hinj (hops op (List.mem_cons_self _ _)) hsub hdb
    exact ih (dbStep db op) (fun o ho => hops o (List.mem_cons_of_mem _ ho)) hsub' hinv

/-- C7: after any sequence of `PebbleDB::insert` and `new_cf` calls from the
empty backend, every prefixed key in the storage map begins with exactly one
registered column family's 8-byte prefix, and the sum of `cf_len` over all
column families equals the total number of entries in the storage map.  The
hypothesis states that the FNV-1a prefixes of the family names used in the
sequence do not collide, which every concrete run can check by evaluation. -/
theorem pebble_prefix_partition (ops : List DbOp)
    (hinj : ∀ c1 ∈ ops.map DbOp.cfName, ∀ c2 ∈ ops.map DbOp.cfName,
      c1.cf_key = c2.cf_key → c1 = c2) :
    (∀ pk ∈ (runOps ops).inner.map Prod.fst,
      (runOps ops).cfs.countP (fun c => decide (pk.take 8 = c.1.cf_key)) = 1) ∧
    ((runOps ops).cfs.map (fun c => c.2.length)).sum = (runOps ops).inner.length := by
  have hbase : DbInv PebbleDB.empty := by
    refine ⟨?_, ?_, ?_, ?_, ?_, ?_⟩ <;> simp [PebbleDB.empty]
  obtain ⟨hinv, hsub⟩ := foldl_dbStep_inv ops PebbleDB.empty (ops.map DbOp.cfName) hinj
    (fun op ho => List.mem_map_of_mem _ ho) (by simp [PebbleDB.empty]) hbase
  simp only [runOps] at hinv hsub ⊢
  constructor
  · intro pk hpk
    obtain ⟨c₀, hc₀, hpkc⟩ := (hinv.memIff pk).mp hpk
    have hpref : pk.take 8 = c₀.1.cf_key := hinv.prefixOk c₀ hc₀ pk hpkc
    apply countP_eq_one_of_unique_fst _ hinv.namesNodup c₀ hc₀
    intro c hc
    constructor
    · intro hp
      have hp' : pk.take 8 = c.1.cf_key := of_decide_eq_true hp
      exact hinj c.1 (hsub _ (List.mem_map_of_mem Prod.fst hc)) c₀.1
        (hsub _ (List.mem_map_of_mem Prod.fst hc₀)) (by rw [← hp', hpref])
    · intro he
      exact decide_eq_true (by rw [he]; exact hpref)
  · exact hinv.sumOk

/-- C7 witness: the test sequence — two inserts under `"claims"` and one under
`"state"` — satisfies both parts of the invariant. -/
theorem pebble_prefix_partition_witness :
    (∀ pk ∈ (runOps sampleOps).inner.map Prod.fst,
      (runOps sampleOps).cfs.countP (fun c => decide (pk.take 8 = c.1.cf_key)) = 1) ∧
    ((runOps sampleOps).cfs.map (fun c => c.2.length)).sum =
      (runOps sampleOps).inner.length :=
  pebble_prefix_partition sampleOps (by decide)

/-- C10 witness: a failing key serialization leaves the empty backend
untouched. -/
theorem insert_error_atomic_witness :
    (PebbleDB.empty.insert (.error "boom") (.ok []) ColumnFamily.default).2 = some "boom" ∧
    (PebbleDB.empty.insert (.error "boom") (.ok []) ColumnFamily.default).1 = PebbleDB.empty :=
  ⟨rfl, insert_error_atomic PebbleDB.empty (.error "boom") (.ok [])
    ColumnFamily.default "boom" rfl⟩

end IntegralDb
